import Mathlib

/-!
# Definite-initialization memory-use collector: `DIMemoryUseCollector.h`

A shallow embedding of the declarations of `lib/SILPasses/DIMemoryUseCollector.h`
and the properties of its inline member functions.

Machine integers are natural numbers.  An `unsigned short` field holds a value
below `2 ^ 16`; an `unsigned` argument holds a value below `2 ^ 32`; storing an
`unsigned` into an `unsigned short` field reduces it modulo `2 ^ 16`.
-/

namespace swift

/-! ## Instructions and values -/

/-- The instruction classes that `DIMemoryObjectInfo::MemoryInst` is documented to
range over ("an allocation (alloc_box, alloc_stack) or a mark_uninitialized"),
and a catch-all for every other instruction class. -/
inductive ValueKind where
  | AllocBoxInst
  | AllocStackInst
  | MarkUninitializedInst
  | Other
  deriving DecidableEq, Repr

/-- A `SILInstruction *`: the address of the instruction (0 is `nullptr`) and the
dynamic class of the instruction that `isa<>` inspects. -/
structure SILInstruction where
  Addr : Nat
  Kind : ValueKind
  deriving DecidableEq, Repr

/-- The test `isa<MarkUninitializedInst>(I)`. -/
def isaMarkUninitializedInst (I : SILInstruction) : Bool :=
  decide (I.Kind = ValueKind.MarkUninitializedInst)

/-- A `SILValue`: a defining instruction and a result number, as built by
`SILValue(Def, ResultNumber)`. -/
structure SILValue where
  Def : SILInstruction
  ResultNumber : Nat
  deriving DecidableEq, Repr

/-! ## Types -/

/-- A `CanType` as far as the flattening utilities look at it: either a tuple
type with its ordered fields (each with an optional label), or any other type,
which is one element of the flattened namespace.  A non-tuple type carries its
name and whether it is trivial. -/
inductive CanType where
  | Scalar (name : String) (trivial : Bool)
  | Tuple (fields : List (Option String × CanType))
  deriving Repr

/-- The memory object being analysed (`class DIMemoryObjectInfo`).
`MemorySILType` is represented by the rvalue type that `getType` returns. -/
structure DIMemoryObjectInfo where
  MemoryInst : SILInstruction
  MemorySILType : CanType
  IsSelfOfInitializer : Bool

/-- The accessor `DIMemoryObjectInfo::getType`. -/
def DIMemoryObjectInfo.getType (M : DIMemoryObjectInfo) : CanType :=
  M.MemorySILType

/-- The accessor `DIMemoryObjectInfo::getAddress`:
`if (isa<MarkUninitializedInst>(MemoryInst)) return SILValue(MemoryInst, 0);`
`return SILValue(MemoryInst, 1);` -/
def DIMemoryObjectInfo.getAddress (M : DIMemoryObjectInfo) : SILValue :=
  if isaMarkUninitializedInst M.MemoryInst then
    SILValue.mk M.MemoryInst 0
  else
    SILValue.mk M.MemoryInst 1

/-! ## Use records -/

/-- The enumeration `DIUseKind`. -/
inductive DIUseKind where
  | Load
  | InitOrAssign
  | Initialization
  | Assign
  | PartialStore
  | InOutUse
  | IndirectIn
  | Escape
  deriving DecidableEq, Repr

/-- The number of values of an `unsigned short`. -/
def USHRT_RANGE : Nat := 2 ^ 16

/-- The number of values of an `unsigned`. -/
def UINT_RANGE : Nat := 2 ^ 32

/-- A `DIMemoryUse`.  `Inst` is the pointer to the instruction (`none` is
`nullptr`); `FirstTupleElement` and `NumTupleElements` are `unsigned short`
fields, so each is below `2 ^ 16`. -/
structure DIMemoryUse where
  Inst : Option SILInstruction
  Kind : DIUseKind
  FirstTupleElement : Nat
  NumTupleElements : Nat
  hFirst : FirstTupleElement < USHRT_RANGE
  hNum : NumTupleElements < USHRT_RANGE

/-- The member initialisers of
`DIMemoryUse(SILInstruction *Inst, DIUseKind Kind, unsigned FTE, unsigned NTE)`:
`Inst(Inst), Kind(Kind), FirstTupleElement(FTE), NumTupleElements(NTE)`.
The two `unsigned` arguments are converted to `unsigned short`. -/
def DIMemoryUse.init (Inst : Option SILInstruction) (Kind : DIUseKind) (FTE NTE : Nat) :
    DIMemoryUse where
  Inst := Inst
  Kind := Kind
  FirstTupleElement := FTE % USHRT_RANGE
  NumTupleElements := NTE % USHRT_RANGE
  hFirst := Nat.mod_lt _ (by decide)
  hNum := Nat.mod_lt _ (by decide)

/-- The condition of the constructor's assertion, evaluated in the body on the
fields just stored: `FTE == FirstTupleElement && NumTupleElements == NTE`. -/
def DIMemoryUse.ctorAssertion (U : DIMemoryUse) (FTE NTE : Nat) : Bool :=
  decide (FTE = U.FirstTupleElement) && decide (U.NumTupleElements = NTE)

/-- The constructor with its assertion enabled: the record when the assertion
holds, `none` when it fires ("more than 65K tuple elements not supported yet"). -/
def DIMemoryUse.ctor (Inst : Option SILInstruction) (Kind : DIUseKind) (FTE NTE : Nat) :
    Option DIMemoryUse :=
  if (DIMemoryUse.init Inst Kind FTE NTE).ctorAssertion FTE NTE then
    some (DIMemoryUse.init Inst Kind FTE NTE)
  else
    none

/-- The member `isInvalid`: `Inst == nullptr`. -/
def DIMemoryUse.isInvalid (U : DIMemoryUse) : Bool := U.Inst.isNone

/-- The member `isValid`: `Inst != nullptr`. -/
def DIMemoryUse.isValid (U : DIMemoryUse) : Bool := U.Inst.isSome

/-- The value of the expression `FirstTupleElement+NumTupleElements`: both
`unsigned short` operands are promoted to `int`, the sum is taken there, and the
result is converted to `unsigned` where it is compared with or passed as one. -/
def DIMemoryUse.endElement (U : DIMemoryUse) : Nat :=
  (U.FirstTupleElement + U.NumTupleElements) % UINT_RANGE

/-- The member `usesElement`:
`return i >= FirstTupleElement && i < FirstTupleElement+NumTupleElements;` -/
def DIMemoryUse.usesElement (U : DIMemoryUse) (i : Nat) : Bool :=
  decide (i ≥ U.FirstTupleElement) && decide (i < U.endElement)

/-! ## Arbitrary-precision integers -/

/-- An `llvm::APInt`: a bit width and the unsigned value of its bits. -/
structure APInt where
  BitWidth : Nat
  VAL : Nat
  deriving DecidableEq, Repr

namespace APInt

/-- Bit `i` of the value (`APInt::operator[]`). -/
def getBit (A : APInt) (i : Nat) : Bool := A.VAL.testBit i

/-- The number of set bits among the `BitWidth` bits (`APInt::countPopulation`). -/
def countPopulation (A : APInt) : Nat :=
  ((List.range A.BitWidth).filter (fun i => A.getBit i)).length

/-- Modelled from the spec: `llvm::APInt` is declared in `llvm/ADT/APInt.h`,
outside this repository.  `APInt::getLowBitsSet(numBits, loBitsSet)` is the
`numBits`-wide value whose bottom `loBitsSet` bits are set. -/
def getLowBitsSet (numBits loBitsSet : Nat) : APInt :=
  APInt.mk numBits ((2 ^ loBitsSet - 1) % 2 ^ numBits)

/-- Modelled from the spec: `llvm::APInt` is declared in `llvm/ADT/APInt.h`,
outside this repository.  `APInt::getHighBitsSet(numBits, hiBitsSet)` is the
`numBits`-wide value whose top `hiBitsSet` bits are set. -/
def getHighBitsSet (numBits hiBitsSet : Nat) : APInt :=
  APInt.mk numBits (((2 ^ hiBitsSet - 1) <<< (numBits - hiBitsSet)) % 2 ^ numBits)

/-- Modelled from the spec: `llvm::APInt` is declared in `llvm/ADT/APInt.h`,
outside this repository.  `APInt::shl(shiftAmt)` shifts left within the width. -/
def shl (A : APInt) (shiftAmt : Nat) : APInt :=
  APInt.mk A.BitWidth ((A.VAL <<< shiftAmt) % 2 ^ A.BitWidth)

/-- Modelled from the spec: `llvm::APInt` is declared in `llvm/ADT/APInt.h`,
outside this repository.  `APInt::operator|` of two values of one width. -/
def or (A B : APInt) : APInt :=
  APInt.mk A.BitWidth (A.VAL ||| B.VAL)

/-- Modelled from the spec: `llvm::APInt` is declared in `llvm/ADT/APInt.h`,
outside this repository.  `APInt::getBitsSet(numBits, loBit, hiBit)` has the bits
from `loBit` (inclusive) to `hiBit` (exclusive) set and all others zero; when
`hiBit < loBit` the set bits wrap around.  The library's debug assertions on
the arguments are not part of the value computed and are left out. -/
def getBitsSet (numBits loBit hiBit : Nat) : APInt :=
  if hiBit < loBit then
    (getLowBitsSet numBits hiBit).or (getHighBitsSet numBits (numBits - loBit))
  else
    (getLowBitsSet numBits (hiBit - loBit)).shl loBit

end APInt

/-- The member `getElementBitmask`:
`return APInt::getBitsSet(NumMemoryTupleElements, FirstTupleElement,`
`FirstTupleElement+NumTupleElements);` -/
def DIMemoryUse.getElementBitmask (U : DIMemoryUse) (NumMemoryTupleElements : Nat) : APInt :=
  APInt.getBitsSet NumMemoryTupleElements U.FirstTupleElement U.endElement

/-! ## Flattened tuples (`namespace TF`) -/

/-- The loop of `llvm::utostr`: while `X` is not zero, put the digit `X % 10` in
front of the buffer and divide `X` by ten.  The first argument bounds the number
of rounds; `X` rounds are enough for the value `X`. -/
def utostrLoop : Nat → Nat → List Char → List Char
  | 0, _, Buffer => Buffer
  | fuel + 1, X, Buffer =>
    if X = 0 then Buffer
    else utostrLoop fuel (X / 10) (Char.ofNat (48 + X % 10) :: Buffer)

/-- The decimal text of an unsigned number, `llvm::utostr`: the digit `0` for
zero, otherwise the digits from the most significant one. -/
def utostr (X : Nat) : String :=
  String.mk (utostrLoop X X (if X = 0 then ['0'] else []))

namespace TF

mutual
/-- Modelled from the spec: the header declares `TF::getElementCount` and its
body is in `DIMemoryUseCollector.cpp`, which is missing.  "1 for scalar; for
aggregate, sum of leafCount over children (an empty child contributes 0)"; the
header: "For tuples, this is the (recursive) count of the fields it contains,
otherwise this is 1." -/
def getElementCount : CanType → Nat
  | .Scalar _ _ => 1
  | .Tuple fields => getElementCountFields fields
/-- The sum of `getElementCount` over the fields of a tuple. -/
def getElementCountFields : List (Option String × CanType) → Nat
  | [] => 0
  | (_, EltTy) :: rest => getElementCount EltTy + getElementCountFields rest
end

mutual
/-- Modelled from the spec: the header declares `TF::emitElementAddress` and its
body is in `DIMemoryUseCollector.cpp`, which is missing.  "descends the type
tree from the root, emitting one addressing step per nesting level, selecting at
each level the child whose covered leaf-range contains leafIndex, subtracting
that child's preceding leaf-offset recursively until a scalar is reached"; an
out-of-range index fails fast (`none`).  The pointer is represented by its
pointee type; the result is the field numbers of the addressing steps emitted,
outermost first, and the pointee type of the address returned. -/
def emitElementAddress : CanType → Nat → Option (List Nat × CanType)
  | .Scalar name trivial, TupleEltNo =>
    if TupleEltNo = 0 then some ([], .Scalar name trivial) else none
  | .Tuple fields, TupleEltNo => emitElementAddressFields fields 0 TupleEltNo
/-- The walk over the fields of one tuple level: `FieldNo` counts the fields
passed and `TupleEltNo` has had their element counts subtracted. -/
def emitElementAddressFields :
    List (Option String × CanType) → Nat → Nat → Option (List Nat × CanType)
  | [], _, _ => none
  | (_, EltTy) :: rest, FieldNo, TupleEltNo =>
    if TupleEltNo < getElementCount EltTy then
      (emitElementAddress EltTy TupleEltNo).map (fun r => (FieldNo :: r.1, r.2))
    else
      emitElementAddressFields rest (FieldNo + 1) (TupleEltNo - getElementCount EltTy)
end

/-- The text of one path fragment after its dot: "field name or positional
index". -/
def fieldLabel (Name : Option String) (FieldNo : Nat) : String :=
  match Name with
  | some n => n
  | none => utostr FieldNo

mutual
/-- Modelled from the spec: the header declares `TF::getPathStringToElement` and
its body is in `DIMemoryUseCollector.cpp`, which is missing.  "same traversal,
accumulating a human-readable path fragment (field name or positional index) per
level", "a .field.1-style path"; the header: "Push the symbolic path name to the
specified element number onto the specified std::string."  The result is the
string after the call, `none` for an out-of-range element. -/
def getPathStringToElement : CanType → Nat → String → Option String
  | .Scalar _ _, Element, Result => if Element = 0 then some Result else none
  | .Tuple fields, Element, Result => getPathStringToElementFields fields 0 Element Result
/-- The walk over the fields of one tuple level for the path string. -/
def getPathStringToElementFields :
    List (Option String × CanType) → Nat → Nat → String → Option String
  | [], _, _, _ => none
  | (Name, FieldTy) :: rest, FieldNo, Element, Result =>
    if Element < getElementCount FieldTy then
      getPathStringToElement FieldTy Element ((Result.push '.') ++ fieldLabel Name FieldNo)
    else
      getPathStringToElementFields rest (FieldNo + 1) (Element - getElementCount FieldTy) Result
end

/-- The type of flattened element `i`: the pointee type of the address that the
descent of `emitElementAddress` reaches. -/
def getElementType (T : CanType) (i : Nat) : Option CanType :=
  (emitElementAddress T i).map (fun r => r.2)

/-! ### The flattened namespace, stated independently of the descent -/

mutual
/-- The scalars of a type in left-to-right depth-first order, each with the
field numbers leading to it from the root.  A tuple without fields lists
nothing. -/
def flattenedElements : CanType → List (List Nat × CanType)
  | .Scalar name trivial => [([], .Scalar name trivial)]
  | .Tuple fields => flattenedElementsFields fields 0
/-- The scalars below the fields of a tuple, the first field having number
`FieldNo`. -/
def flattenedElementsFields :
    List (Option String × CanType) → Nat → List (List Nat × CanType)
  | [], _ => []
  | (_, EltTy) :: rest, FieldNo =>
    (flattenedElements EltTy).map (fun r => (FieldNo :: r.1, r.2))
      ++ flattenedElementsFields rest (FieldNo + 1)
end

/-- The type reached from `T` by projecting the fields of a path in turn. -/
def typeAtPath : CanType → List Nat → Option CanType
  | T, [] => some T
  | .Tuple fields, FieldNo :: p =>
    match fields[FieldNo]? with
    | some (_, FieldTy) => typeAtPath FieldTy p
    | none => none
  | .Scalar _ _, _ :: _ => none

/-- The labels of the fields that a path projects, outermost first. -/
def labelsAlongPath : CanType → List Nat → List String
  | .Tuple fields, FieldNo :: p =>
    match fields[FieldNo]? with
    | some (Name, FieldTy) => fieldLabel Name FieldNo :: labelsAlongPath FieldTy p
    | none => []
  | _, _ => []

/-- The characters of a path: a dot and the label, for each label. -/
def renderLabels : List String → List Char
  | [] => []
  | l :: rest => '.' :: (l.data ++ renderLabels rest)

/-- The labels of the fields of a tuple, the first field having number
`FieldNo`. -/
def fieldLabels : List (Option String × CanType) → Nat → List String
  | [], _ => []
  | (Name, _) :: rest, FieldNo => fieldLabel Name FieldNo :: fieldLabels rest (FieldNo + 1)

/-- The labels are pairwise distinct and none contains a dot. -/
def labelsDistinctAndPlain (labels : List String) : Bool :=
  decide labels.Nodup && labels.all (fun l => decide ('.' ∉ l.data))

mutual
/-- In every tuple of the type, the labels of the fields are pairwise distinct
and contain no dot. -/
def hasUnambiguousLabels : CanType → Bool
  | .Scalar _ _ => true
  | .Tuple fields =>
    labelsDistinctAndPlain (fieldLabels fields 0) && hasUnambiguousLabelsFields fields
/-- Every field type of the list has unambiguous labels. -/
def hasUnambiguousLabelsFields : List (Option String × CanType) → Bool
  | [] => true
  | (_, FieldTy) :: rest => hasUnambiguousLabels FieldTy && hasUnambiguousLabelsFields rest
end

mutual
/-- The labels that `getPathStringToElement` pushes for an element, as a list:
the same walk with the fragments kept apart. -/
def labelsToElement : CanType → Nat → Option (List String)
  | .Scalar _ _, Element => if Element = 0 then some [] else none
  | .Tuple fields, Element => labelsToElementFields fields 0 Element
/-- The walk over the fields of one tuple level for the label list. -/
def labelsToElementFields : List (Option String × CanType) → Nat → Nat → Option (List String)
  | [], _, _ => none
  | (Name, FieldTy) :: rest, FieldNo, Element =>
    if Element < getElementCount FieldTy then
      (labelsToElement FieldTy Element).map (fun ls => fieldLabel Name FieldNo :: ls)
    else
      labelsToElementFields rest (FieldNo + 1) (Element - getElementCount FieldTy)
end

mutual
/-- No field of any tuple of the type has a name. -/
def hasNoNames : CanType → Bool
  | .Scalar _ _ => true
  | .Tuple fields => hasNoNamesFields fields
/-- No field of the list has a name, nor any field below. -/
def hasNoNamesFields : List (Option String × CanType) → Bool
  | [] => true
  | (Name, FieldTy) :: rest => Name.isNone && hasNoNames FieldTy && hasNoNamesFields rest
end

end TF

/-- Modelled from the spec: the header declares
`DIMemoryUse::onlyTouchesTrivialElements` and its body is in
`DIMemoryUseCollector.cpp`, which is missing.  "true iff every leaf in the
record's range has scalar trivial type"; the header: "Return true if all of the
accessed elements have trivial type."  Each element of the range
`FirstTupleElement, ..., FirstTupleElement + NumTupleElements - 1` is looked up
in the type of the memory object. -/
def DIMemoryUse.onlyTouchesTrivialElements (U : DIMemoryUse)
    (MemoryInfo : DIMemoryObjectInfo) : Bool :=
  (List.range' U.FirstTupleElement U.NumTupleElements).all (fun i =>
    match TF.getElementType MemoryInfo.getType i with
    | some (.Scalar _ trivial) => trivial
    | _ => false)

/-- The record invariant of the data model for a record `U` of the memory object
`M`: at least one element, and the range ends within the elements of `M`. -/
def DIMemoryUse.satisfiesRecordInvariant (U : DIMemoryUse) (M : DIMemoryObjectInfo) : Prop :=
  1 ≤ U.NumTupleElements ∧
    U.FirstTupleElement + U.NumTupleElements ≤ TF.getElementCount M.getType

/-! ## Objects of the scenarios -/

/-- The type `Int`. -/
def tyInt : CanType := CanType.Scalar "Int" true

/-- The type `Float`. -/
def tyFloat : CanType := CanType.Scalar "Float" true

/-- The type `Double`. -/
def tyDouble : CanType := CanType.Scalar "Double" true

/-- A class type, which is not trivial. -/
def tyObject : CanType := CanType.Scalar "Object" false

/-- The type `(Int, (Float, Double))`. -/
def tyScenarioA : CanType :=
  CanType.Tuple [(none, tyInt), (none, CanType.Tuple [(none, tyFloat), (none, tyDouble)])]

/-- The type `(Int, ((Float, (), Double)))` of the header's comment. -/
def tyHeaderExample : CanType :=
  CanType.Tuple [(none, tyInt),
    (none, CanType.Tuple [(none,
      CanType.Tuple [(none, tyFloat), (none, CanType.Tuple []), (none, tyDouble)])])]

/-- The type `(a: Int, a: Int)`, with one name on two fields. -/
def tyRepeatedName : CanType :=
  CanType.Tuple [(some "a", tyInt), (some "a", tyInt)]

/-- The type `(x: Int, y: (Object, z: Double))`. -/
def tyNamed : CanType :=
  CanType.Tuple [(some "x", tyInt),
    (some "y", CanType.Tuple [(none, tyObject), (some "z", tyDouble)])]

/-- An `alloc_stack` instruction. -/
def instAllocStack : SILInstruction := SILInstruction.mk 4096 ValueKind.AllocStackInst

/-- A store instruction, a user of the memory. -/
def instStore : SILInstruction := SILInstruction.mk 4100 ValueKind.Other

/-- A `mark_uninitialized` instruction. -/
def instMarkUninitialized : SILInstruction :=
  SILInstruction.mk 8192 ValueKind.MarkUninitializedInst

/-- A memory object of type `(Int, (Float, Double))` allocated by `alloc_stack`. -/
def memScenarioA : DIMemoryObjectInfo :=
  DIMemoryObjectInfo.mk instAllocStack tyScenarioA false

/-- A memory object of type `(x: Int, y: (Object, z: Double))`. -/
def memNamed : DIMemoryObjectInfo :=
  DIMemoryObjectInfo.mk instMarkUninitialized tyNamed true

/-- The record with first element 2 and 3 elements. -/
def useTwoThree : DIMemoryUse := DIMemoryUse.init (some instStore) DIUseKind.Initialization 2 3

/-- The record with first element 65535 and 65535 elements. -/
def useWide : DIMemoryUse := DIMemoryUse.init (some instStore) DIUseKind.Escape 65535 65535

/-! ## Bit masks: auxiliary facts -/

theorem DIMemoryUse.endElement_eq (U : DIMemoryUse) :
    U.endElement = U.FirstTupleElement + U.NumTupleElements := by
  have h1 := U.hFirst
  have h2 := U.hNum
  unfold DIMemoryUse.endElement
  apply Nat.mod_eq_of_lt
  simp only [USHRT_RANGE, UINT_RANGE] at *
  omega

theorem APInt.getBit_getBitsSet (numBits lo n i : Nat) (h : lo + n ≤ numBits) :
    (APInt.getBitsSet numBits lo (lo + n)).getBit i
      = (decide (lo ≤ i) && decide (i < lo + n)) := by
  have hnot : ¬ (lo + n < lo) := by omega
  simp only [APInt.getBitsSet, hnot, if_false, APInt.shl, APInt.getLowBitsSet, APInt.getBit,
    Nat.add_sub_cancel_left, Nat.testBit_mod_two_pow, Nat.testBit_shiftLeft,
    Nat.testBit_two_pow_sub_one]
  by_cases h1 : lo ≤ i <;> by_cases h2 : i < lo + n <;> by_cases h3 : i < numBits <;>
    by_cases h4 : i - lo < n <;> by_cases h5 : i - lo < numBits <;>
    simp [h1, h2, h3, h4, h5] <;> omega

theorem length_filter_range_Ico (N lo n : Nat) (h : lo + n ≤ N) :
    ((List.range N).filter (fun i => decide (lo ≤ i) && decide (i < lo + n))).length = n := by
  have hnd : ((List.range N).filter
      (fun i => decide (lo ≤ i) && decide (i < lo + n))).Nodup :=
    (List.nodup_range N).filter _
  rw [← List.toFinset_card_of_nodup hnd]
  have hset : ((List.range N).filter
      (fun i => decide (lo ≤ i) && decide (i < lo + n))).toFinset = Finset.Ico lo (lo + n) := by
    ext x
    simp only [List.mem_toFinset, List.mem_filter, List.mem_range, Bool.and_eq_true,
      decide_eq_true_eq, Finset.mem_Ico]
    omega
  rw [hset, Nat.card_Ico]
  omega

/-! ## The flattened namespace: auxiliary facts -/

namespace TF

theorem getElem?_append_cons_length {α : Type} (pre : List α) (x : α) (rest : List α) :
    (pre ++ x :: rest)[pre.length]? = some x := by
  rw [List.getElem?_append_right (Nat.le_refl _), Nat.sub_self, List.getElem?_cons_zero]

theorem getElementCountFields_eq_sum (fields : List (Option String × CanType)) :
    getElementCountFields fields = (fields.map (fun f => getElementCount f.2)).sum := by
  induction fields with
  | nil => simp [getElementCountFields]
  | cons f rest ih =>
    obtain ⟨Name, EltTy⟩ := f
    simp [getElementCountFields, ih]

mutual
theorem length_flattenedElements : ∀ T : CanType,
    (flattenedElements T).length = getElementCount T
  | .Scalar _ _ => by simp [flattenedElements, getElementCount]
  | .Tuple fields => by
    simp only [flattenedElements, getElementCount]
    exact length_flattenedElementsFields fields 0
theorem length_flattenedElementsFields : ∀ (fields : List (Option String × CanType))
    (FieldNo : Nat),
    (flattenedElementsFields fields FieldNo).length = getElementCountFields fields
  | [], _ => by simp [flattenedElementsFields, getElementCountFields]
  | (_, EltTy) :: rest, FieldNo => by
    simp only [flattenedElementsFields, getElementCountFields, List.length_append,
      List.length_map]
    rw [length_flattenedElements EltTy, length_flattenedElementsFields rest]
end

mutual
theorem emitElementAddress_eq_flattened : ∀ (T : CanType) (i : Nat),
    emitElementAddress T i = (flattenedElements T)[i]?
  | .Scalar _ _, i => by
    cases i with
    | zero => simp [emitElementAddress, flattenedElements]
    | succ k => simp [emitElementAddress, flattenedElements]
  | .Tuple fields, i => by
    simp only [emitElementAddress, flattenedElements]
    exact emitElementAddressFields_eq_flattened fields 0 i
theorem emitElementAddressFields_eq_flattened : ∀ (fields : List (Option String × CanType))
    (FieldNo i : Nat),
    emitElementAddressFields fields FieldNo i = (flattenedElementsFields fields FieldNo)[i]?
  | [], _, _ => by simp [emitElementAddressFields, flattenedElementsFields]
  | (_, EltTy) :: rest, FieldNo, i => by
    simp only [emitElementAddressFields, flattenedElementsFields]
    by_cases hi : i < getElementCount EltTy
    · have hl : i < ((flattenedElements EltTy).map
          (fun r => (FieldNo :: r.1, r.2))).length := by
        rw [List.length_map, length_flattenedElements]; exact hi
      rw [List.getElem?_append_left hl, List.getElem?_map,
        ← emitElementAddress_eq_flattened EltTy i]
      simp [hi]
    · have hl : ((flattenedElements EltTy).map
          (fun r => (FieldNo :: r.1, r.2))).length ≤ i := by
        rw [List.length_map, length_flattenedElements]; omega
      rw [List.getElem?_append_right hl, List.length_map, length_flattenedElements,
        ← emitElementAddressFields_eq_flattened rest (FieldNo + 1)]
      simp [hi]
end

mutual
theorem flattenedElements_typeAtPath : ∀ (T : CanType) (r : List Nat × CanType),
    r ∈ flattenedElements T →
    typeAtPath T r.1 = some r.2 ∧ ∃ name trivial, r.2 = CanType.Scalar name trivial
  | .Scalar name trivial, r, h => by
    simp only [flattenedElements, List.mem_singleton] at h
    subst h
    exact ⟨by simp [typeAtPath], name, trivial, rfl⟩
  | .Tuple fields, r, h => by
    simp only [flattenedElements] at h
    exact flattenedElementsFields_typeAtPath fields [] r h
theorem flattenedElementsFields_typeAtPath : ∀ (rest pre : List (Option String × CanType))
    (r : List Nat × CanType), r ∈ flattenedElementsFields rest pre.length →
    typeAtPath (CanType.Tuple (pre ++ rest)) r.1 = some r.2
      ∧ ∃ name trivial, r.2 = CanType.Scalar name trivial
  | [], _, _, h => by simp [flattenedElementsFields] at h
  | (Name, EltTy) :: rest, pre, r, h => by
    simp only [flattenedElementsFields, List.mem_append, List.mem_map] at h
    rcases h with ⟨r0, hr0, rfl⟩ | h
    · obtain ⟨h1, h2⟩ := flattenedElements_typeAtPath EltTy r0 hr0
      refine ⟨?_, h2⟩
      simp only [typeAtPath, getElem?_append_cons_length]
      exact h1
    · have := flattenedElementsFields_typeAtPath rest (pre ++ [(Name, EltTy)]) r
        (by simpa using h)
      simpa using this
end

mutual
theorem labelsToElement_eq_labelsAlongPath : ∀ (T : CanType) (i : Nat)
    (r : List Nat × CanType), (flattenedElements T)[i]? = some r →
    labelsToElement T i = some (labelsAlongPath T r.1)
  | .Scalar name trivial, i, r, h => by
    cases i with
    | zero =>
      simp only [flattenedElements, List.getElem?_cons_zero, Option.some.injEq] at h
      subst h
      simp [labelsToElement, labelsAlongPath]
    | succ k => simp [flattenedElements] at h
  | .Tuple fields, i, r, h => by
    simp only [flattenedElements] at h
    simp only [labelsToElement]
    exact labelsToElementFields_eq_labelsAlongPath fields [] i r h
theorem labelsToElementFields_eq_labelsAlongPath :
    ∀ (rest pre : List (Option String × CanType)) (i : Nat) (r : List Nat × CanType),
    (flattenedElementsFields rest pre.length)[i]? = some r →
    labelsToElementFields rest pre.length i
      = some (labelsAlongPath (CanType.Tuple (pre ++ rest)) r.1)
  | [], _, _, _, h => by simp [flattenedElementsFields] at h
  | (Name, EltTy) :: rest, pre, i, r, h => by
    simp only [flattenedElementsFields] at h
    simp only [labelsToElementFields]
    by_cases hi : i < getElementCount EltTy
    · have hl : i < ((flattenedElements EltTy).map
          (fun r => (pre.length :: r.1, r.2))).length := by
        rw [List.length_map, length_flattenedElements]; exact hi
      rw [List.getElem?_append_left hl, List.getElem?_map, Option.map_eq_some'] at h
      obtain ⟨r0, hr0, rfl⟩ := h
      simp only [hi, if_true, labelsToElement_eq_labelsAlongPath EltTy i r0 hr0,
        Option.map_some', labelsAlongPath, getElem?_append_cons_length]
    · have hl : ((flattenedElements EltTy).map
          (fun r => (pre.length :: r.1, r.2))).length ≤ i := by
        rw [List.length_map, length_flattenedElements]; omega
      rw [List.getElem?_append_right hl, List.length_map, length_flattenedElements] at h
      have := labelsToElementFields_eq_labelsAlongPath rest (pre ++ [(Name, EltTy)])
        (i - getElementCount EltTy) r (by simpa using h)
      simp only [hi, if_false]
      simpa using this
end

mutual
theorem getPathStringToElement_eq_render : ∀ (T : CanType) (i : Nat) (R : String),
    getPathStringToElement T i R
      = (labelsToElement T i).map (fun ls => String.mk (R.data ++ renderLabels ls))
  | .Scalar _ _, i, R => by
    by_cases h : i = 0 <;> simp [getPathStringToElement, labelsToElement, h, renderLabels]
  | .Tuple fields, i, R => by
    simp only [getPathStringToElement, labelsToElement]
    exact getPathStringToElementFields_eq_render fields 0 i R
theorem getPathStringToElementFields_eq_render : ∀ (fields : List (Option String × CanType))
    (FieldNo i : Nat) (R : String),
    getPathStringToElementFields fields FieldNo i R
      = (labelsToElementFields fields FieldNo i).map
          (fun ls => String.mk (R.data ++ renderLabels ls))
  | [], _, _, _ => by simp [getPathStringToElementFields, labelsToElementFields]
  | (Name, FieldTy) :: rest, FieldNo, i, R => by
    simp only [getPathStringToElementFields, labelsToElementFields]
    by_cases hi : i < getElementCount FieldTy
    · simp only [hi, if_true]
      rw [getPathStringToElement_eq_render FieldTy i]
      simp [Option.map_map, Function.comp_def, renderLabels, String.data_push,
        String.data_append, List.append_assoc]
    · simp only [hi, if_false]
      exact getPathStringToElementFields_eq_render rest (FieldNo + 1) _ R
end


mutual
theorem labelsToElement_isSome : ∀ (T : CanType) (i : Nat), i < getElementCount T →
    ∃ ls, labelsToElement T i = some ls
  | .Scalar _ _, i, h => by
    simp only [getElementCount] at h
    have : i = 0 := by omega
    exact ⟨[], by simp [labelsToElement, this]⟩
  | .Tuple fields, i, h => by
    simp only [getElementCount] at h
    obtain ⟨l, ls, hls, _⟩ := labelsToElementFields_isSome fields 0 i h
    exact ⟨l :: ls, by simpa only [labelsToElement] using hls⟩
theorem labelsToElementFields_isSome : ∀ (fields : List (Option String × CanType))
    (FieldNo i : Nat), i < getElementCountFields fields →
    ∃ l ls, labelsToElementFields fields FieldNo i = some (l :: ls)
      ∧ l ∈ fieldLabels fields FieldNo
  | [], _, i, h => by simp [getElementCountFields] at h
  | (Name, FieldTy) :: rest, FieldNo, i, h => by
    simp only [getElementCountFields] at h
    simp only [labelsToElementFields, fieldLabels]
    by_cases hi : i < getElementCount FieldTy
    · obtain ⟨ls, hls⟩ := labelsToElement_isSome FieldTy i hi
      exact ⟨fieldLabel Name FieldNo, ls, by simp [hi, hls], by simp⟩
    · obtain ⟨l, ls, hls, hmem⟩ := labelsToElementFields_isSome rest (FieldNo + 1)
        (i - getElementCount FieldTy) (by omega)
      exact ⟨l, ls, by simp [hi, hls], by simp [hmem]⟩
end

mutual
theorem labelsToElement_injective : ∀ (T : CanType) (i j : Nat),
    hasUnambiguousLabels T = true → i < getElementCount T → j < getElementCount T →
    labelsToElement T i = labelsToElement T j → i = j
  | .Scalar _ _, i, j, _, hi, hj, _ => by
    simp only [getElementCount] at hi hj
    omega
  | .Tuple fields, i, j, hw, hi, hj, h => by
    simp only [getElementCount] at hi hj
    simp only [hasUnambiguousLabels, labelsDistinctAndPlain, Bool.and_eq_true,
      decide_eq_true_eq] at hw
    simp only [labelsToElement] at h
    exact labelsToElementFields_injective fields 0 i j hw.1.1 hw.2 hi hj h
theorem labelsToElementFields_injective : ∀ (fields : List (Option String × CanType))
    (FieldNo i j : Nat), (fieldLabels fields FieldNo).Nodup →
    hasUnambiguousLabelsFields fields = true →
    i < getElementCountFields fields → j < getElementCountFields fields →
    labelsToElementFields fields FieldNo i = labelsToElementFields fields FieldNo j → i = j
  | [], _, i, _, _, _, hi, _, _ => by simp [getElementCountFields] at hi
  | (Name, FieldTy) :: rest, FieldNo, i, j, hnd, hw, hi, hj, h => by
    simp only [getElementCountFields] at hi hj
    simp only [fieldLabels, List.nodup_cons] at hnd
    simp only [hasUnambiguousLabelsFields, Bool.and_eq_true] at hw
    simp only [labelsToElementFields] at h
    by_cases hi' : i < getElementCount FieldTy <;> by_cases hj' : j < getElementCount FieldTy
    · obtain ⟨li, hli⟩ := labelsToElement_isSome FieldTy i hi'
      obtain ⟨lj, hlj⟩ := labelsToElement_isSome FieldTy j hj'
      simp only [hi', hj', if_true, hli, hlj, Option.map_some', Option.some.injEq,
        List.cons.injEq, true_and] at h
      exact labelsToElement_injective FieldTy i j hw.1 hi' hj' (by rw [hli, hlj, h])
    · exfalso
      obtain ⟨li, hli⟩ := labelsToElement_isSome FieldTy i hi'
      obtain ⟨l, lj, hlj, hmem⟩ := labelsToElementFields_isSome rest (FieldNo + 1)
        (j - getElementCount FieldTy) (by omega)
      simp only [hi', hj', if_true, if_false, hli, hlj, Option.map_some', Option.some.injEq,
        List.cons.injEq] at h
      exact hnd.1 (h.1 ▸ hmem)
    · exfalso
      obtain ⟨lj, hlj⟩ := labelsToElement_isSome FieldTy j hj'
      obtain ⟨l, li, hli, hmem⟩ := labelsToElementFields_isSome rest (FieldNo + 1)
        (i - getElementCount FieldTy) (by omega)
      simp only [hi', hj', if_true, if_false, hli, hlj, Option.map_some', Option.some.injEq,
        List.cons.injEq] at h
      exact hnd.1 (h.1 ▸ hmem)
    · simp only [hi', hj', if_false] at h
      have := labelsToElementFields_injective rest (FieldNo + 1) (i - getElementCount FieldTy)
        (j - getElementCount FieldTy) hnd.2 hw.2 (by omega) (by omega) h
      omega
end


theorem renderLabels_head (ls : List String) :
    renderLabels ls = [] ∨ ∃ t, renderLabels ls = '.' :: t := by
  cases ls with
  | nil => exact Or.inl rfl
  | cons l rest => exact Or.inr ⟨_, rfl⟩

theorem append_split_at_dot : ∀ (l l' r r' : List Char), '.' ∉ l → '.' ∉ l' →
    (r = [] ∨ ∃ t, r = '.' :: t) → (r' = [] ∨ ∃ t, r' = '.' :: t) →
    l ++ r = l' ++ r' → l = l' ∧ r = r'
  | [], [], _, _, _, _, _, _, h => ⟨rfl, by simpa using h⟩
  | [], c :: t', r, r', _, hl', hr, _, h => by
    exfalso
    rcases hr with hr | ⟨t, hr⟩
    · subst hr; simp at h
    · subst hr
      simp only [List.nil_append, List.cons_append, List.cons.injEq] at h
      exact hl' (by simp [← h.1])
  | c :: t, [], r, r', hl, _, _, hr', h => by
    exfalso
    rcases hr' with hr' | ⟨t', hr'⟩
    · subst hr'; simp at h
    · subst hr'
      simp only [List.nil_append, List.cons_append, List.cons.injEq] at h
      exact hl (by simp [h.1])
  | c :: t, c' :: t', r, r', hl, hl', hr, hr', h => by
    simp only [List.cons_append, List.cons.injEq] at h
    have hl1 : '.' ∉ t := fun hm => hl (List.mem_cons_of_mem _ hm)
    have hl2 : '.' ∉ t' := fun hm => hl' (List.mem_cons_of_mem _ hm)
    obtain ⟨h1, h2⟩ := append_split_at_dot t t' r r' hl1 hl2 hr hr' h.2
    exact ⟨by rw [h.1, h1], h2⟩

theorem renderLabels_injective : ∀ (ls ls' : List String),
    (∀ l ∈ ls, '.' ∉ l.data) → (∀ l ∈ ls', '.' ∉ l.data) →
    renderLabels ls = renderLabels ls' → ls = ls'
  | [], [], _, _, _ => rfl
  | [], _ :: _, _, _, h => by simp [renderLabels] at h
  | _ :: _, [], _, _, h => by simp [renderLabels] at h
  | l :: rest, l' :: rest', hp, hp', h => by
    simp only [renderLabels, List.cons.injEq, true_and] at h
    obtain ⟨h1, h2⟩ := append_split_at_dot l.data l'.data _ _
      (hp l (List.mem_cons_self _ _)) (hp' l' (List.mem_cons_self _ _))
      (renderLabels_head rest) (renderLabels_head rest') h
    have hrest := renderLabels_injective rest rest'
      (fun x hx => hp x (List.mem_cons_of_mem _ hx))
      (fun x hx => hp' x (List.mem_cons_of_mem _ hx)) h2
    rw [String.ext h1, hrest]

mutual
theorem labelsToElement_plain : ∀ (T : CanType) (i : Nat) (ls : List String),
    hasUnambiguousLabels T = true → labelsToElement T i = some ls →
    ∀ l ∈ ls, '.' ∉ l.data
  | .Scalar _ _, i, ls, _, h => by
    by_cases hi : i = 0
    · simp only [labelsToElement, hi, if_true, Option.some.injEq] at h
      subst h
      simp
    · simp [labelsToElement, hi] at h
  | .Tuple fields, i, ls, hw, h => by
    simp only [hasUnambiguousLabels, labelsDistinctAndPlain, Bool.and_eq_true,
      decide_eq_true_eq, List.all_eq_true] at hw
    simp only [labelsToElement] at h
    exact labelsToElementFields_plain fields 0 i ls hw.1.2 hw.2 h
theorem labelsToElementFields_plain : ∀ (fields : List (Option String × CanType))
    (FieldNo i : Nat) (ls : List String),
    (∀ l ∈ fieldLabels fields FieldNo, '.' ∉ l.data) →
    hasUnambiguousLabelsFields fields = true →
    labelsToElementFields fields FieldNo i = some ls →
    ∀ l ∈ ls, '.' ∉ l.data
  | [], _, _, _, _, _, h => by simp [labelsToElementFields] at h
  | (Name, FieldTy) :: rest, FieldNo, i, ls, hp, hw, h => by
    simp only [hasUnambiguousLabelsFields, Bool.and_eq_true] at hw
    simp only [fieldLabels, List.mem_cons, forall_eq_or_imp] at hp
    simp only [labelsToElementFields] at h
    by_cases hi : i < getElementCount FieldTy
    · simp only [hi, if_true, Option.map_eq_some'] at h
      obtain ⟨ls0, hls0, rfl⟩ := h
      intro l hl
      rcases List.mem_cons.mp hl with rfl | hl
      · exact hp.1
      · exact labelsToElement_plain FieldTy i ls0 hw.1 hls0 l hl
    · simp only [hi, if_false] at h
      exact labelsToElementFields_plain rest (FieldNo + 1) _ ls hp.2 hw.2 h
end



end TF

/-! ## Decimal text: auxiliary facts -/

theorem digitChar_injective : ∀ a < 10, ∀ b < 10,
    Char.ofNat (48 + a) = Char.ofNat (48 + b) → a = b := by
  decide

theorem digitChar_ne_dot : ∀ a < 10, Char.ofNat (48 + a) ≠ '.' := by
  decide

theorem utostrLoop_append : ∀ (fuel X : Nat) (Buffer : List Char),
    utostrLoop fuel X Buffer = utostrLoop fuel X [] ++ Buffer
  | 0, _, _ => by simp [utostrLoop]
  | fuel + 1, X, Buffer => by
    by_cases hX : X = 0
    · simp [utostrLoop, hX]
    · simp only [utostrLoop, hX, if_false]
      rw [utostrLoop_append fuel (X / 10) (_ :: Buffer),
        utostrLoop_append fuel (X / 10) [_]]
      simp

theorem utostrLoop_eq_nil (fuel X : Nat) (h : X ≤ fuel) (hnil : utostrLoop fuel X [] = []) :
    X = 0 := by
  by_contra hX
  obtain ⟨f, rfl⟩ : ∃ f, fuel = f + 1 := ⟨fuel - 1, by omega⟩
  simp only [utostrLoop, hX, if_false] at hnil
  rw [utostrLoop_append] at hnil
  simp at hnil

theorem utostrLoop_injective : ∀ (f1 f2 X Y : Nat), X ≤ f1 → Y ≤ f2 →
    utostrLoop f1 X [] = utostrLoop f2 Y [] → X = Y
  | 0, f2, X, Y, h1, h2, h => by
    have hX : X = 0 := by omega
    subst hX
    simp only [utostrLoop] at h
    exact (utostrLoop_eq_nil f2 Y h2 h.symm).symm
  | f + 1, f2, X, Y, h1, h2, h => by
    by_cases hX : X = 0
    · subst hX
      simp only [utostrLoop, if_true] at h
      exact (utostrLoop_eq_nil f2 Y h2 h.symm).symm
    · by_cases hY : Y = 0
      · subst hY
        have h0 : utostrLoop f2 0 [] = [] := by cases f2 <;> simp [utostrLoop]
        rw [h0] at h
        exact utostrLoop_eq_nil (f + 1) X h1 h
      · obtain ⟨g, rfl⟩ : ∃ g, f2 = g + 1 := ⟨f2 - 1, by omega⟩
        simp only [utostrLoop, hX, hY, if_false] at h
        rw [utostrLoop_append f (X / 10) [_], utostrLoop_append g (Y / 10) [_]] at h
        obtain ⟨hpre, hlast⟩ := List.append_inj' h rfl
        have hdiv := utostrLoop_injective f g (X / 10) (Y / 10) (by omega) (by omega) hpre
        simp only [List.cons.injEq, and_true] at hlast
        have hmod := digitChar_injective (X % 10) (Nat.mod_lt _ (by decide)) (Y % 10)
          (Nat.mod_lt _ (by decide)) hlast
        omega

theorem utostrLoop_no_dot : ∀ (fuel X : Nat), '.' ∉ utostrLoop fuel X []
  | 0, _ => by simp [utostrLoop]
  | fuel + 1, X => by
    by_cases hX : X = 0
    · simp [utostrLoop, hX]
    · simp only [utostrLoop, hX, if_false]
      rw [utostrLoop_append]
      intro hmem
      rcases List.mem_append.mp hmem with hm | hm
      · exact utostrLoop_no_dot fuel (X / 10) hm
      · simp only [List.mem_singleton] at hm
        exact digitChar_ne_dot (X % 10) (Nat.mod_lt _ (by decide)) hm.symm

theorem utostr_no_dot (X : Nat) : '.' ∉ (utostr X).data := by
  unfold utostr
  by_cases hX : X = 0
  · subst hX
    decide
  · simp only [hX, if_false]
    exact utostrLoop_no_dot X X

theorem utostr_pos (X : Nat) (hX : X ≠ 0) :
    (utostr X).data = utostrLoop (X - 1) (X / 10) [] ++ [Char.ofNat (48 + X % 10)] := by
  obtain ⟨f, rfl⟩ : ∃ f, X = f + 1 := ⟨X - 1, by omega⟩
  simp only [utostr, hX, if_false, utostrLoop, Nat.add_sub_cancel]
  rw [utostrLoop_append]

theorem utostr_injective (X Y : Nat) (h : utostr X = utostr Y) : X = Y := by
  have hd : (utostr X).data = (utostr Y).data := by rw [h]
  have key : ∀ Z : Nat, Z ≠ 0 → (utostr Z).data ≠ (utostr 0).data := by
    intro Z hZ hEq
    rw [utostr_pos Z hZ] at hEq
    have h0 : (utostr 0).data = [] ++ [Char.ofNat (48 + 0)] := by decide
    rw [h0] at hEq
    obtain ⟨hpre, hlast⟩ := List.append_inj' hEq rfl
    have hdiv := utostrLoop_eq_nil (Z - 1) (Z / 10) (by omega) hpre
    simp only [List.cons.injEq, and_true] at hlast
    have hmod := digitChar_injective (Z % 10) (Nat.mod_lt _ (by decide)) 0 (by decide) hlast
    omega
  by_cases hX : X = 0
  · subst hX
    by_contra hY
    exact key Y (fun h0 => hY h0.symm) hd.symm
  · by_cases hY : Y = 0
    · subst hY
      exact absurd hd (key X hX)
    · rw [utostr_pos X hX, utostr_pos Y hY] at hd
      obtain ⟨hpre, hlast⟩ := List.append_inj' hd rfl
      have hdiv := utostrLoop_injective (X - 1) (Y - 1) (X / 10) (Y / 10) (by omega)
        (by omega) hpre
      simp only [List.cons.injEq, and_true] at hlast
      have hmod := digitChar_injective (X % 10) (Nat.mod_lt _ (by decide)) (Y % 10)
        (Nat.mod_lt _ (by decide)) hlast
      omega

namespace TF

theorem fieldLabels_of_hasNoNames : ∀ (fields : List (Option String × CanType)) (FieldNo : Nat),
    hasNoNamesFields fields = true →
    ∀ l ∈ fieldLabels fields FieldNo, ∃ m, FieldNo ≤ m ∧ l = utostr m
  | [], _, _, l, hl => by simp [fieldLabels] at hl
  | (Name, FieldTy) :: rest, FieldNo, h, l, hl => by
    simp only [hasNoNamesFields, Bool.and_eq_true, Option.isNone_iff_eq_none] at h
    obtain ⟨⟨hN, _⟩, hrest⟩ := h
    subst hN
    simp only [fieldLabels, fieldLabel, List.mem_cons] at hl
    rcases hl with rfl | hl
    · exact ⟨FieldNo, Nat.le_refl _, rfl⟩
    · obtain ⟨m, hm, rfl⟩ := fieldLabels_of_hasNoNames rest (FieldNo + 1) hrest l hl
      exact ⟨m, by omega, rfl⟩

theorem fieldLabels_nodup_of_hasNoNames : ∀ (fields : List (Option String × CanType))
    (FieldNo : Nat), hasNoNamesFields fields = true → (fieldLabels fields FieldNo).Nodup
  | [], _, _ => by simp [fieldLabels]
  | (Name, FieldTy) :: rest, FieldNo, h => by
    have h0 := h
    simp only [hasNoNamesFields, Bool.and_eq_true, Option.isNone_iff_eq_none] at h
    obtain ⟨⟨hN, _⟩, hrest⟩ := h
    subst hN
    simp only [fieldLabels, fieldLabel, List.nodup_cons]
    refine ⟨?_, fieldLabels_nodup_of_hasNoNames rest (FieldNo + 1) hrest⟩
    intro hmem
    obtain ⟨m, hm, heq⟩ := fieldLabels_of_hasNoNames rest (FieldNo + 1) hrest _ hmem
    have := utostr_injective _ _ heq
    omega

mutual
theorem hasUnambiguousLabels_of_hasNoNames : ∀ T : CanType,
    hasNoNames T = true → hasUnambiguousLabels T = true
  | .Scalar _ _, _ => by simp [hasUnambiguousLabels]
  | .Tuple fields, h => by
    simp only [hasNoNames] at h
    simp only [hasUnambiguousLabels, labelsDistinctAndPlain, Bool.and_eq_true,
      decide_eq_true_eq, List.all_eq_true]
    refine ⟨⟨fieldLabels_nodup_of_hasNoNames fields 0 h, ?_⟩,
      hasUnambiguousLabelsFields_of_hasNoNames fields h⟩
    intro l hl
    obtain ⟨m, _, rfl⟩ := fieldLabels_of_hasNoNames fields 0 h l hl
    exact utostr_no_dot m
theorem hasUnambiguousLabelsFields_of_hasNoNames : ∀ fields : List (Option String × CanType),
    hasNoNamesFields fields = true → hasUnambiguousLabelsFields fields = true
  | [], _ => by simp [hasUnambiguousLabelsFields]
  | (Name, FieldTy) :: rest, h => by
    simp only [hasNoNamesFields, Bool.and_eq_true] at h
    simp only [hasUnambiguousLabelsFields, Bool.and_eq_true]
    exact ⟨hasUnambiguousLabels_of_hasNoNames FieldTy h.1.2,
      hasUnambiguousLabelsFields_of_hasNoNames rest h.2⟩
end

end TF

/-! ## The memory object -/

/-- C2: `getAddress` is result 0 of `MemoryInst` when `MemoryInst` is a
`mark_uninitialized` and result 1 of `MemoryInst` in every other case; two
descriptors with the same `MemoryInst` have the same address, whatever their
other fields. -/
theorem getAddress_determined_by_MemoryInst (M : DIMemoryObjectInfo) :
    (M.MemoryInst.Kind = ValueKind.MarkUninitializedInst →
        M.getAddress = SILValue.mk M.MemoryInst 0) ∧
    (M.MemoryInst.Kind ≠ ValueKind.MarkUninitializedInst →
        M.getAddress = SILValue.mk M.MemoryInst 1) ∧
    (M.getAddress).Def = M.MemoryInst ∧
    (∀ (T : CanType) (b : Bool),
        (DIMemoryObjectInfo.mk M.MemoryInst T b).getAddress = M.getAddress) ∧
    memNamed.getAddress = SILValue.mk instMarkUninitialized 0 ∧
    memScenarioA.getAddress = SILValue.mk instAllocStack 1 := by
  refine ⟨?_, ?_, ?_, ?_, by decide, by decide⟩
  · intro h
    simp [DIMemoryObjectInfo.getAddress, isaMarkUninitializedInst, h]
  · intro h
    simp [DIMemoryObjectInfo.getAddress, isaMarkUninitializedInst, h]
  · by_cases h : M.MemoryInst.Kind = ValueKind.MarkUninitializedInst <;>
      simp [DIMemoryObjectInfo.getAddress, isaMarkUninitializedInst, h]
  · intro T b
    rfl

/-! ## Use records -/

/-- C1: when the range of the record ends within `N` elements, the mask
`getElementBitmask(N)` is `N` bits wide, its value fits in `N` bits, bit `i` is
set exactly when `FirstTupleElement <= i < FirstTupleElement + NumTupleElements`,
and the number of set bits is `NumTupleElements`; for first element 2, 3
elements and `N = 5` the bits 2, 3, 4 are set and the bits 0, 1 are clear. -/
theorem getElementBitmask_sets_exactly_the_range (U : DIMemoryUse) (N : Nat)
    (h : U.FirstTupleElement + U.NumTupleElements ≤ N) :
    (U.getElementBitmask N).BitWidth = N ∧
    (U.getElementBitmask N).VAL < 2 ^ N ∧
    (∀ i, (U.getElementBitmask N).getBit i = true ↔
        (U.FirstTupleElement ≤ i ∧ i < U.FirstTupleElement + U.NumTupleElements)) ∧
    (U.getElementBitmask N).countPopulation = U.NumTupleElements ∧
    (U.FirstTupleElement = 2 → U.NumTupleElements = 3 → N = 5 →
        (U.getElementBitmask N).getBit 0 = false ∧ (U.getElementBitmask N).getBit 1 = false ∧
        (U.getElementBitmask N).getBit 2 = true ∧ (U.getElementBitmask N).getBit 3 = true ∧
        (U.getElementBitmask N).getBit 4 = true) := by
  have hbit : ∀ i, (U.getElementBitmask N).getBit i
      = (decide (U.FirstTupleElement ≤ i) &&
          decide (i < U.FirstTupleElement + U.NumTupleElements)) := by
    intro i
    unfold DIMemoryUse.getElementBitmask
    rw [U.endElement_eq]
    exact APInt.getBit_getBitsSet N _ _ i h
  have hnot : ¬ (U.FirstTupleElement + U.NumTupleElements < U.FirstTupleElement) := by omega
  have hwidth : (U.getElementBitmask N).BitWidth = N := by
    simp [DIMemoryUse.getElementBitmask, U.endElement_eq, APInt.getBitsSet, hnot, APInt.shl,
      APInt.getLowBitsSet]
  refine ⟨hwidth, ?_, ?_, ?_, ?_⟩
  · simp only [DIMemoryUse.getElementBitmask, U.endElement_eq, APInt.getBitsSet, hnot,
      if_false, APInt.shl, APInt.getLowBitsSet]
    exact Nat.mod_lt _ (by positivity)
  · intro i
    rw [hbit i]
    simp
  · unfold APInt.countPopulation
    rw [hwidth]
    simp only [hbit]
    exact length_filter_range_Ico N _ _ h
  · intro h2 h3 _
    simp [hbit, h2, h3]

/-- C1, at the record with first element 2 and 3 elements over 5 elements. -/
theorem getElementBitmask_sets_exactly_the_range_witness :
    useTwoThree.FirstTupleElement + useTwoThree.NumTupleElements ≤ 5 ∧
    ((useTwoThree.getElementBitmask 5).BitWidth = 5 ∧
    (useTwoThree.getElementBitmask 5).VAL < 2 ^ 5 ∧
    (∀ i, (useTwoThree.getElementBitmask 5).getBit i = true ↔
        (useTwoThree.FirstTupleElement ≤ i ∧
          i < useTwoThree.FirstTupleElement + useTwoThree.NumTupleElements)) ∧
    (useTwoThree.getElementBitmask 5).countPopulation = useTwoThree.NumTupleElements ∧
    (useTwoThree.FirstTupleElement = 2 → useTwoThree.NumTupleElements = 3 → 5 = 5 →
        (useTwoThree.getElementBitmask 5).getBit 0 = false ∧
        (useTwoThree.getElementBitmask 5).getBit 1 = false ∧
        (useTwoThree.getElementBitmask 5).getBit 2 = true ∧
        (useTwoThree.getElementBitmask 5).getBit 3 = true ∧
        (useTwoThree.getElementBitmask 5).getBit 4 = true)) :=
  ⟨by decide, getElementBitmask_sets_exactly_the_range useTwoThree 5 (by decide)⟩

/-- C9: for a record whose range ends within `N` elements and every index `i`
(below `N` or not), `usesElement(i)` holds exactly when bit `i` of
`getElementBitmask(N)` is set;
and for every index `k`, `usesElement(k)` holds exactly when
`FirstTupleElement <= k < FirstTupleElement + NumTupleElements`, the sum taken
without reduction modulo `2 ^ 16`. -/
theorem usesElement_agrees_with_getElementBitmask (U : DIMemoryUse) (N i : Nat)
    (h : U.FirstTupleElement + U.NumTupleElements ≤ N) :
    (U.usesElement i = true ↔ (U.getElementBitmask N).getBit i = true) ∧
    (∀ k, U.usesElement k = true ↔
        (U.FirstTupleElement ≤ k ∧ k < U.FirstTupleElement + U.NumTupleElements)) := by
  have huses : ∀ k, U.usesElement k = true ↔
      (U.FirstTupleElement ≤ k ∧ k < U.FirstTupleElement + U.NumTupleElements) := by
    intro k
    simp [DIMemoryUse.usesElement, U.endElement_eq]
  refine ⟨?_, huses⟩
  rw [huses i]
  unfold DIMemoryUse.getElementBitmask
  rw [U.endElement_eq, APInt.getBit_getBitsSet N _ _ i h]
  simp

/-- C9, at the record with first element 65535 and 65535 elements, whose end
131070 is beyond `2 ^ 16`, and element 70000. -/
theorem usesElement_agrees_with_getElementBitmask_witness :
    useWide.FirstTupleElement + useWide.NumTupleElements ≤ 131070 ∧
    useWide.usesElement 70000 = true ∧
    ((useWide.usesElement 70000 = true ↔
        (useWide.getElementBitmask 131070).getBit 70000 = true) ∧
    (∀ k, useWide.usesElement k = true ↔
        (useWide.FirstTupleElement ≤ k ∧
          k < useWide.FirstTupleElement + useWide.NumTupleElements))) :=
  ⟨by decide, by decide,
    usesElement_agrees_with_getElementBitmask useWide 131070 70000 (by decide)⟩

/-- C10: the constructor stores `FTE mod 2^16` and `NTE mod 2^16`; its assertion
holds exactly when `FTE < 65536` and `NTE < 65536`; and when the assertion holds
the stored fields are `FTE` and `NTE` themselves, with `Inst` and `Kind` stored
as given. -/
theorem ctor_stores_arguments_modulo_2_pow_16 (Inst : Option SILInstruction) (Kind : DIUseKind)
    (FTE NTE : Nat) :
    (DIMemoryUse.init Inst Kind FTE NTE).FirstTupleElement = FTE % 2 ^ 16 ∧
    (DIMemoryUse.init Inst Kind FTE NTE).NumTupleElements = NTE % 2 ^ 16 ∧
    (DIMemoryUse.init Inst Kind FTE NTE).Inst = Inst ∧
    (DIMemoryUse.init Inst Kind FTE NTE).Kind = Kind ∧
    ((DIMemoryUse.init Inst Kind FTE NTE).ctorAssertion FTE NTE = true ↔
      (FTE < 65536 ∧ NTE < 65536)) ∧
    ((DIMemoryUse.init Inst Kind FTE NTE).ctorAssertion FTE NTE = true →
      ∃ U, DIMemoryUse.ctor Inst Kind FTE NTE = some U ∧
        U.FirstTupleElement = FTE ∧ U.NumTupleElements = NTE ∧
        U.Inst = Inst ∧ U.Kind = Kind) ∧
    ((DIMemoryUse.init Inst Kind FTE NTE).ctorAssertion FTE NTE = false →
      DIMemoryUse.ctor Inst Kind FTE NTE = none) := by
  have hiff : (DIMemoryUse.init Inst Kind FTE NTE).ctorAssertion FTE NTE = true ↔
      (FTE < 65536 ∧ NTE < 65536) := by
    simp only [DIMemoryUse.ctorAssertion, DIMemoryUse.init, USHRT_RANGE, Bool.and_eq_true,
      decide_eq_true_eq]
    constructor
    · rintro ⟨h1, h2⟩
      have := Nat.mod_lt FTE (show 0 < 2 ^ 16 by decide)
      have := Nat.mod_lt NTE (show 0 < 2 ^ 16 by decide)
      omega
    · rintro ⟨h1, h2⟩
      exact ⟨(Nat.mod_eq_of_lt h1).symm, Nat.mod_eq_of_lt h2⟩
  refine ⟨rfl, rfl, rfl, rfl, hiff, ?_, ?_⟩
  · intro h
    obtain ⟨h1, h2⟩ := hiff.mp h
    refine ⟨DIMemoryUse.init Inst Kind FTE NTE, by simp [DIMemoryUse.ctor, h], ?_, ?_, rfl, rfl⟩
    · exact Nat.mod_eq_of_lt h1
    · exact Nat.mod_eq_of_lt h2
  · intro h
    simp [DIMemoryUse.ctor, h]

/-- C6 as stated fails: the constructor's assertion holds for `NTE = 0`, and the
record built has no element; and it holds for `FTE = 2`, `NTE = 3`, whose range
ends at 5, beyond the 3 elements of an object of type `(Int, (Float, Double))`. -/
theorem ctor_does_not_establish_record_invariant :
    (∃ U, DIMemoryUse.ctor (some instStore) DIUseKind.Load 0 0 = some U ∧
      U.NumTupleElements = 0 ∧
      ¬ U.satisfiesRecordInvariant memScenarioA) ∧
    (∃ U, DIMemoryUse.ctor (some instStore) DIUseKind.Load 2 3 = some U ∧
      TF.getElementCount memScenarioA.getType = 3 ∧
      U.FirstTupleElement + U.NumTupleElements = 5 ∧
      ¬ U.satisfiesRecordInvariant memScenarioA) := by
  refine ⟨⟨DIMemoryUse.init (some instStore) DIUseKind.Load 0 0, rfl, rfl, ?_⟩,
    ⟨DIMemoryUse.init (some instStore) DIUseKind.Load 2 3, rfl, by decide, rfl, ?_⟩⟩
  · intro h
    exact absurd h.1 (by decide)
  · intro h
    exact absurd h.2 (by decide)

/-- C6, amended: a record built by the constructor with its assertion holding
satisfies the record invariant for a memory object exactly when the arguments do:
`NTE >= 1` and `FTE + NTE` at most the element count of the object. -/
theorem ctor_record_invariant_iff_arguments (Inst : Option SILInstruction) (Kind : DIUseKind)
    (FTE NTE : Nat)
    (M : DIMemoryObjectInfo) (U : DIMemoryUse)
    (h : DIMemoryUse.ctor Inst Kind FTE NTE = some U) :
    U.satisfiesRecordInvariant M ↔
      (1 ≤ NTE ∧ FTE + NTE ≤ TF.getElementCount M.getType) := by
  unfold DIMemoryUse.ctor at h
  by_cases ha : (DIMemoryUse.init Inst Kind FTE NTE).ctorAssertion FTE NTE = true
  · simp only [ha, if_true, Option.some.injEq] at h
    subst h
    simp only [DIMemoryUse.ctorAssertion, Bool.and_eq_true, decide_eq_true_eq] at ha
    have h1 : (DIMemoryUse.init Inst Kind FTE NTE).FirstTupleElement = FTE := ha.1.symm
    have h2 : (DIMemoryUse.init Inst Kind FTE NTE).NumTupleElements = NTE := ha.2
    unfold DIMemoryUse.satisfiesRecordInvariant
    rw [h1, h2]
  · simp [ha] at h

/-- C6 amended, at `FTE = 2`, `NTE = 1` for an object of type
`(Int, (Float, Double))`. -/
theorem ctor_record_invariant_iff_arguments_witness :
    DIMemoryUse.ctor (some instStore) DIUseKind.Assign 2 1
      = some (DIMemoryUse.init (some instStore) DIUseKind.Assign 2 1) ∧
    ((DIMemoryUse.init (some instStore) DIUseKind.Assign 2 1).satisfiesRecordInvariant
        memScenarioA ↔
      (1 ≤ 1 ∧ 2 + 1 ≤ TF.getElementCount memScenarioA.getType)) :=
  ⟨rfl, ctor_record_invariant_iff_arguments (some instStore) DIUseKind.Assign 2 1 memScenarioA
    (DIMemoryUse.init (some instStore) DIUseKind.Assign 2 1) rfl⟩


/-! ## The flattened namespace -/

/-- C3: `getElementCount` is 1 for a scalar and, for a tuple, the sum of
`getElementCount` over its fields, an empty tuple counting 0; it is the number
of scalars met in left-to-right depth-first order; `(Int, (Float, Double))` and
`(Int, ((Float, (), Double)))` each have 3 elements. -/
theorem getElementCount_is_sum_over_fields (T : CanType) :
    (∀ name trivial, T = CanType.Scalar name trivial → TF.getElementCount T = 1) ∧
    (∀ fields, T = CanType.Tuple fields →
        TF.getElementCount T = (fields.map (fun f => TF.getElementCount f.2)).sum) ∧
    TF.getElementCount (CanType.Tuple []) = 0 ∧
    TF.getElementCount T = (TF.flattenedElements T).length ∧
    TF.getElementCount tyScenarioA = 3 ∧
    TF.getElementCount tyHeaderExample = 3 := by
  refine ⟨?_, ?_, by decide, (TF.length_flattenedElements T).symm, by decide, by decide⟩
  · rintro name trivial rfl
    simp [TF.getElementCount]
  · rintro fields rfl
    simp only [TF.getElementCount]
    exact TF.getElementCountFields_eq_sum fields

/-- C4: for an element number `i` below the element count of `T`, the descent
of `emitElementAddress` returns the address of a scalar, reached by the path
that is entry `i` of the scalars of `T` listed left to right, depth first, empty
tuples listing nothing; `getPathStringToElement` pushes the labels of the same
path, a dot before each.  In `(Int, (Float, Double))` element 0 is `Int`, 1 is
`Float` and 2 is `Double`; in `(Int, ((Float, (), Double)))` element 2 is
`Double`. -/
theorem descent_reaches_ith_scalar (T : CanType) (i : Nat) (Result : String)
    (h : i < TF.getElementCount T) :
    (∃ p name trivial,
      (TF.flattenedElements T)[i]? = some (p, CanType.Scalar name trivial) ∧
      TF.typeAtPath T p = some (CanType.Scalar name trivial) ∧
      TF.emitElementAddress T i = some (p, CanType.Scalar name trivial) ∧
      TF.getPathStringToElement T i Result
        = some (String.mk (Result.data ++ TF.renderLabels (TF.labelsAlongPath T p)))) ∧
    (TF.emitElementAddress tyScenarioA 0 = some ([0], tyInt) ∧
      TF.emitElementAddress tyScenarioA 1 = some ([1, 0], tyFloat) ∧
      TF.emitElementAddress tyScenarioA 2 = some ([1, 1], tyDouble) ∧
      TF.emitElementAddress tyHeaderExample 2 = some ([1, 0, 2], tyDouble) ∧
      TF.getPathStringToElement tyHeaderExample 2 "" = some ".1.0.2") := by
  refine ⟨?_, rfl, rfl, rfl, rfl, by decide⟩
  have hlen : i < (TF.flattenedElements T).length := by
    rw [TF.length_flattenedElements]; exact h
  have hget : (TF.flattenedElements T)[i]? = some ((TF.flattenedElements T)[i]) :=
    List.getElem?_eq_getElem hlen
  obtain ⟨hty, name, trivial, hs⟩ :=
    TF.flattenedElements_typeAtPath T _ (List.getElem_mem hlen)
  have hpair : (TF.flattenedElements T)[i]
      = (((TF.flattenedElements T)[i]).1, CanType.Scalar name trivial) := by
    rw [← hs]
  refine ⟨((TF.flattenedElements T)[i]).1, name, trivial, ?_, ?_, ?_, ?_⟩
  · rw [hget, ← hpair]
  · rw [hty, hs]
  · rw [TF.emitElementAddress_eq_flattened, hget, ← hpair]
  · rw [TF.getPathStringToElement_eq_render,
      TF.labelsToElement_eq_labelsAlongPath T i _ hget]
    rfl

/-- C4, at element 1 of `(x: Int, y: (Object, z: Double))`. -/
theorem descent_reaches_ith_scalar_witness :
    1 < TF.getElementCount tyNamed ∧
    TF.emitElementAddress tyNamed 1 = some ([1, 0], tyObject) ∧
    TF.getPathStringToElement tyNamed 1 "" = some ".y.0" ∧
    ((∃ p name trivial,
      (TF.flattenedElements tyNamed)[1]? = some (p, CanType.Scalar name trivial) ∧
      TF.typeAtPath tyNamed p = some (CanType.Scalar name trivial) ∧
      TF.emitElementAddress tyNamed 1 = some (p, CanType.Scalar name trivial) ∧
      TF.getPathStringToElement tyNamed 1 ""
        = some (String.mk ("".data ++ TF.renderLabels (TF.labelsAlongPath tyNamed p)))) ∧
    (TF.emitElementAddress tyScenarioA 0 = some ([0], tyInt) ∧
      TF.emitElementAddress tyScenarioA 1 = some ([1, 0], tyFloat) ∧
      TF.emitElementAddress tyScenarioA 2 = some ([1, 1], tyDouble) ∧
      TF.emitElementAddress tyHeaderExample 2 = some ([1, 0, 2], tyDouble) ∧
      TF.getPathStringToElement tyHeaderExample 2 "" = some ".1.0.2")) :=
  ⟨by decide, rfl, by decide, descent_reaches_ith_scalar tyNamed 1 "" (by decide)⟩

/-- C5 as stated fails: in `(a: Int, a: Int)`, which has 2 elements, the path
strings of elements 0 and 1 are both `.a`. -/
theorem path_strings_collide_on_repeated_name :
    TF.getElementCount tyRepeatedName = 2 ∧
    TF.getPathStringToElement tyRepeatedName 0 "" = some ".a" ∧
    TF.getPathStringToElement tyRepeatedName 1 "" = some ".a" ∧
    ¬ (∀ (T : CanType) (i j : Nat), i < TF.getElementCount T → j < TF.getElementCount T →
        TF.getPathStringToElement T i "" = TF.getPathStringToElement T j "" → i = j) := by
  refine ⟨by decide, by decide, by decide, ?_⟩
  intro hall
  exact absurd (hall tyRepeatedName 0 1 (by decide) (by decide) (by decide)) (by decide)

/-- C5, amended: for a type in every tuple of which the labels of the fields (the
name of a field, or its decimal position when it has no name) are pairwise
distinct and contain no dot, the path strings of two different elements below
the element count are different. -/
theorem path_strings_distinct_of_unambiguous_labels (T : CanType) (i j : Nat)
    (Result : String) (hw : TF.hasUnambiguousLabels T = true)
    (hi : i < TF.getElementCount T) (hj : j < TF.getElementCount T) (hne : i ≠ j) :
    TF.getPathStringToElement T i Result ≠ TF.getPathStringToElement T j Result := by
  intro heq
  obtain ⟨li, hli⟩ := TF.labelsToElement_isSome T i hi
  obtain ⟨lj, hlj⟩ := TF.labelsToElement_isSome T j hj
  rw [TF.getPathStringToElement_eq_render, TF.getPathStringToElement_eq_render,
    hli, hlj] at heq
  simp only [Option.map_some', Option.some.injEq] at heq
  have hr := List.append_cancel_left (congrArg String.data heq)
  have hl := TF.renderLabels_injective li lj (TF.labelsToElement_plain T i li hw hli)
    (TF.labelsToElement_plain T j lj hw hlj) hr
  exact hne (TF.labelsToElement_injective T i j hw hi hj (by rw [hli, hlj, hl]))

/-- C5 amended, at elements 1 and 2 of `(x: Int, y: (Object, z: Double))`, whose
path strings are `.y.0` and `.y.z`. -/
theorem path_strings_distinct_of_unambiguous_labels_witness :
    (TF.hasUnambiguousLabels tyNamed = true ∧ 1 < TF.getElementCount tyNamed ∧
      2 < TF.getElementCount tyNamed ∧ (1 : Nat) ≠ 2) ∧
    TF.getPathStringToElement tyNamed 1 "" = some ".y.0" ∧
    TF.getPathStringToElement tyNamed 2 "" = some ".y.z" ∧
    TF.getPathStringToElement tyNamed 1 "" ≠ TF.getPathStringToElement tyNamed 2 "" :=
  ⟨⟨by decide, by decide, by decide, by decide⟩, by decide, by decide,
    path_strings_distinct_of_unambiguous_labels tyNamed 1 2 "" (by decide) (by decide)
      (by decide) (by decide)⟩

/-- C7: `onlyTouchesTrivialElements` is true exactly when, for every index `i`
with `FirstTupleElement <= i < FirstTupleElement + NumTupleElements`, entry `i`
of the scalars of the object's type (left to right, depth first) is a scalar of
trivial type. -/
theorem onlyTouchesTrivialElements_iff_all_trivial (U : DIMemoryUse) (M : DIMemoryObjectInfo) :
    U.onlyTouchesTrivialElements M = true ↔
      ∀ i, U.FirstTupleElement ≤ i → i < U.FirstTupleElement + U.NumTupleElements →
        ∃ p name, (TF.flattenedElements M.getType)[i]? = some (p, CanType.Scalar name true) := by
  unfold DIMemoryUse.onlyTouchesTrivialElements
  simp only [List.all_eq_true, List.mem_range'_1, TF.getElementType,
    TF.emitElementAddress_eq_flattened]
  constructor
  · intro hall i h1 h2
    have := hall i ⟨h1, h2⟩
    cases hget : (TF.flattenedElements M.getType)[i]? with
    | none => simp [hget] at this
    | some r =>
      obtain ⟨p, s⟩ := r
      cases s with
      | Scalar name trivial =>
        simp only [hget, Option.map_some'] at this
        subst this
        exact ⟨p, name, rfl⟩
      | Tuple fields => simp [hget] at this
  · intro hall i hi
    obtain ⟨p, name, hget⟩ := hall i hi.1 hi.2
    simp [hget]


/-- The object of type `(x: Int, y: (Object, z: Double))`: a record of element 0
alone, or of element 2 alone, touches only trivial elements; a record whose
range holds element 1, the class, does not; neither does a record whose range
runs beyond the 3 elements. -/
theorem onlyTouchesTrivialElements_examples :
    (DIMemoryUse.init (some instStore) DIUseKind.InitOrAssign 0 1).onlyTouchesTrivialElements
        memNamed = true ∧
    (DIMemoryUse.init (some instStore) DIUseKind.InitOrAssign 2 1).onlyTouchesTrivialElements
        memNamed = true ∧
    (DIMemoryUse.init (some instStore) DIUseKind.Assign 0 3).onlyTouchesTrivialElements
        memNamed = false ∧
    (DIMemoryUse.init (some instStore) DIUseKind.Assign 1 1).onlyTouchesTrivialElements
        memNamed = false ∧
    (DIMemoryUse.init (some instStore) DIUseKind.Assign 2 2).onlyTouchesTrivialElements
        memNamed = false ∧
    (DIMemoryUse.init (some instStore) DIUseKind.Load 0 3).onlyTouchesTrivialElements
        memScenarioA = true := by
  decide

end swift
